import Mathlib

/-!
Verification development for mrkd, a converter from a constrained Markdown
dialect to Roff man pages and HTML.  The Python source (src/mrkd/__init__.py,
with src/mrkd.py an older near-duplicate) is shallowly embedded here: strings
are `List Char`, Python string methods become explicit Lean functions, and
`sys.exit` / `assert` failures become `Except.error`.
-/

namespace Mrkd

/-- Python whitespace test used by `str.strip()` (ASCII part). -/
def pyIsSpace (c : Char) : Bool :=
  c = ' ' || c = '\t' || c = '\n' || c = '\r' || c = '\x0b' || c = '\x0c'

/-- Python `str.strip()`: drop whitespace from both ends. -/
def pyStrip (s : List Char) : List Char :=
  ((s.dropWhile pyIsSpace).reverse.dropWhile pyIsSpace).reverse

/-- `leadsWith p s` is true when `p` is an initial segment of `s`. -/
def leadsWith : List Char → List Char → Bool
  | [], _ => true
  | _ :: _, [] => false
  | p :: ps, c :: cs => p = c && leadsWith ps cs

/-- Scan for the first occurrence of `pat` in `s`; on success return the text
before the occurrence and the text after it.  `(splitFirst pat s).isSome`
models Python `pat in s`, and the second component models
`s.split(pat, 1)[1]`. -/
def splitFirst (pat : List Char) : List Char → Option (List Char × List Char)
  | [] => none
  | c :: rest =>
    if leadsWith pat (c :: rest) then some ([], (c :: rest).drop pat.length)
    else
      match splitFirst pat rest with
      | some (pre, post) => some (c :: pre, post)
      | none => none

/-- Boolean infix test derived from `splitFirst`; models Python `pat in s`
for a non-empty pattern. -/
def hasSub (pat s : List Char) : Bool := (splitFirst pat s).isSome

/-- Python `str.replace(pat, rep)` (all non-overlapping occurrences, scanning
left to right), with structural fuel: a non-empty pattern consumes at least
one character per step, so `s.length` steps always suffice.  Python's
behaviour for an empty pattern is not needed by the source, so an empty
pattern leaves the string unchanged. -/
def pyReplaceFuel (pat rep : List Char) : Nat → List Char → List Char
  | _, [] => []
  | 0, s => s
  | fuel + 1, c :: rest =>
    if pat ≠ [] ∧ leadsWith pat (c :: rest) then
      rep ++ pyReplaceFuel pat rep fuel ((c :: rest).drop pat.length)
    else
      c :: pyReplaceFuel pat rep fuel rest

/-- Python `str.replace(pat, rep)`. -/
def pyReplace (s pat rep : List Char) : List Char :=
  pyReplaceFuel pat rep s.length s

/-- The source's `lines` helper: newline-joined arguments plus a trailing
newline. -/
def pyLines : List (List Char) → List Char
  | [] => ['\n']
  | [x] => x ++ ['\n']
  | x :: y :: rest => x ++ '\n' :: pyLines (y :: rest)

/-- Python `s.split(sep)` for a single-character separator. -/
def splitOnChar (sep : Char) : List Char → List (List Char)
  | [] => [[]]
  | c :: rest =>
    if c = sep then [] :: splitOnChar sep rest
    else
      match splitOnChar sep rest with
      | s :: ss => (c :: s) :: ss
      | [] => [[c]]

/-- Decimal digit character for `d < 10`. -/
def digitChar (d : Nat) : Char := Char.ofNat (48 + d)

/-- Decimal rendering with structural fuel: each step divides by ten, so
`n + 1` steps always suffice. -/
def natReprFuel : Nat → Nat → List Char
  | 0, _ => []
  | fuel + 1, n =>
    if n < 10 then [digitChar n]
    else natReprFuel fuel (n / 10) ++ [digitChar (n % 10)]

/-- Decimal rendering of a natural number, modelling Python `str(count)`. -/
def natRepr (n : Nat) : List Char := natReprFuel (n + 1) n

/-! ## Inline tokenizer extension (`ReferenceLexer.enable_reference`) -/

/-- Character class `[A-Za-z-_.]` of the citation rule (Python parses the
dash between `z` and `_` as a literal, so the class is exactly ASCII
letters, hyphen, underscore and dot — no digits). -/
def identChar (c : Char) : Bool :=
  ('A' ≤ c && c ≤ 'Z') || ('a' ≤ c && c ≤ 'z') || c = '-' || c = '_' || c = '.'

/-- The anchored citation regex `^([A-Za-z-_.]+)\((\d+)\)` applied at the
start of `s`, returning the two groups on success.  Since `(` never belongs
to the identifier class and `)` is never a digit, the backtracking of the
two greedy `+` quantifiers can never succeed on anything but the maximal
runs, so taking maximal runs is a faithful model of the Python engine. -/
def reference_match (s : List Char) : Option (List Char × List Char) :=
  let ident := s.takeWhile identChar
  if ident.isEmpty then none
  else
    match s.drop ident.length with
    | '(' :: r2 =>
      let digits := r2.takeWhile Char.isDigit
      if digits.isEmpty then none
      else
        match r2.drop digits.length with
        | ')' :: _ => some (ident, digits)
        | _ => none
    | _ => none

/-! ## Roff renderer -/

/-- `RoffRenderer.double_emphasis`. -/
def roff_double_emphasis (text : List Char) : List Char :=
  "\\fB".data ++ text ++ "\\fR".data

/-- `RoffRenderer.emphasis`. -/
def roff_emphasis (text : List Char) : List Char :=
  "\\fI".data ++ text ++ "\\fR".data

/-- `RoffRenderer.reference`: bold name followed by the parenthesized
section, with no hyperlink. -/
def roff_reference (text sect : List Char) : List Char :=
  roff_double_emphasis text ++ '(' :: (sect ++ [')'])

/-- `RoffRenderer.codespan`: delegates to `double_emphasis`. -/
def roff_codespan (text : List Char) : List Char :=
  roff_double_emphasis text

/-- `RoffRenderer.text`: `text.replace('\\', '\\\\').replace('.', '\\.')`. -/
def roff_text (text : List Char) : List Char :=
  pyReplace (pyReplace text ['\\'] "\\\\".data) ['.'] "\\.".data

/-- `RoffRenderer.linebreak`: `assert 0`, which always raises. -/
def roff_linebreak : Except (List Char) (List Char) :=
  Except.error "AssertionError".data

/-- The `.TH` title line emitted for a level-1 header. -/
def thLine (name sect : List Char) : List Char :=
  ".TH \"".data ++ name.map Char.toUpper ++ "\" \"".data ++ sect ++
    "\" \"\" \"\" \"".data ++ name ++ "\"".data

/-- `RoffRenderer.header`.  The first component of a successful result is the
`description` assignment performed by the call (`some d` exactly when the
call stores `d` in `self.description`); the second is the returned markup.
A level-1 header without `--` models `sys.exit(f'Invalid header: {raw}')`. -/
def roff_header (name sect text : List Char) (level : Nat) (raw : List Char) :
    Except (List Char) (Option (List Char) × List Char) :=
  if level = 1 then
    match splitFirst "--".data raw with
    | none => Except.error ("Invalid header: ".data ++ raw)
    | some (_, after) =>
      Except.ok (some (pyStrip after),
        pyLines [thLine name sect, ".SH NAME".data,
                 pyReplace text "--".data "-".data])
  else
    Except.ok (none, pyLines [".SH ".data ++ text])

/-- `RoffRenderer.list_item`: `lines('\0', text)`. -/
def list_item (text : List Char) : List Char :=
  pyLines [['\x00'], text]

/-- The ordered-list loop body: one `.IP {count}\.` block per chunk, with the
counter starting at `n`. -/
def ipBlocks : Nat → List (List Char) → List Char
  | _, [] => []
  | n, c :: cs => ".IP ".data ++ natRepr n ++ "\\.".data ++ c ++ ipBlocks (n + 1) cs

/-- `RoffRenderer.list` (src/mrkd/__init__.py version, including the leading
blank line that works around nested-list breakage).  The `assert body[0] ==
'\0'` becomes an `Except.error`; indexing an empty body raises too. -/
def roff_list (body : List Char) (ordered : Bool) : Except (List Char) (List Char) :=
  if ordered then
    match body with
    | [] => Except.error "IndexError".data
    | c :: _ =>
      if c = '\x00' then
        Except.ok (pyLines [[], ".RS".data,
          ipBlocks 1 (splitOnChar '\x00' body).tail, ".RE".data])
      else Except.error "AssertionError".data
  else
    Except.ok (pyLines [[], ".RS".data,
      pyReplace body ['\x00'] ".IP \\[bu]".data, ".RE".data])

/-! ## HTML renderer -/

/-- Modelled from the spec: `mistune.Renderer.double_emphasis`, the bold
markup of the external Markdown library (not part of src/), which the spec's
end-to-end scenario shows as `<b>…</b>` around the citation name. -/
def html_double_emphasis (text : List Char) : List Char :=
  "<b>".data ++ text ++ "</b>".data

/-- The reference index as consumed by the HTML renderer: an association
list from composite keys `name(section)` to URLs, looked up by exact key. -/
def lookupIndex (idx : List (List Char × List Char)) (key : List Char) :
    Option (List Char) :=
  match idx with
  | [] => none
  | (k, v) :: rest => if k = key then some v else lookupIndex rest key

/-- `HtmlRenderer.reference`: bold name plus parenthesized section, wrapped
in an anchor exactly when the composite key is present in the index. -/
def html_reference (idx : List (List Char × List Char)) (text sect : List Char) :
    List Char :=
  let result := html_double_emphasis text ++ '(' :: (sect ++ [')'])
  let key := text ++ '(' :: (sect ++ [')'])
  match lookupIndex idx key with
  | some url => "<a href=\"".data ++ url ++ "\">".data ++ result ++ "</a>".data
  | none => result

/-- The character set `set(string.ascii_letters + string.digits + '_-.')`
used to build header ids. -/
def idChar (c : Char) : Bool :=
  ('A' ≤ c && c ≤ 'Z') || ('a' ≤ c && c ≤ 'z') || c.isDigit ||
    c = '_' || c = '-' || c = '.'

/-- The generated header id: spaces of the raw text become hyphens, characters
outside `idChar` are dropped, and the result is lower-cased. -/
def slug (raw : List Char) : List Char :=
  (((raw.map fun c => if c = ' ' then '-' else c).filter idChar).map Char.toLower)

/-- One `<hN id="ref"><a class="hl" href="#ref">text</a></hN>` heading line. -/
def htag (level : Nat) (ref text : List Char) : List Char :=
  "<h".data ++ natRepr level ++ " id=\"".data ++ ref ++ "\">".data ++
    "<a class=\"hl\" href=\"#".data ++ ref ++ "\">".data ++ text ++ "</a>".data ++
    "</h".data ++ natRepr level ++ ">".data

/-- `HtmlRenderer.header`.  As for `roff_header`, the first component of a
successful result is the `description` assignment performed by the call; a
level-1 header rewrites the visible text to `NAME`, demotes itself to level
2 and appends the `--`→`-`-substituted text after the heading. -/
def html_header (text : List Char) (level : Nat) (raw : List Char) :
    Except (List Char) (Option (List Char) × List Char) :=
  if level = 1 then
    match splitFirst "--".data raw with
    | none => Except.error ("Invalid header: ".data ++ raw)
    | some (_, after) =>
      Except.ok (some (pyStrip after),
        pyLines [htag 2 (slug raw) "NAME".data, pyReplace text "--".data "-".data])
  else
    Except.ok (none, pyLines [htag level (slug raw) text, []])

/-! ## Pipeline driver: name/section inference and template assembly -/

/-- Whether the driver regex `(.*).(\d).[^.]+$` (note: the two inner dots are
unescaped wildcards) matches the basename `s` with the group `(.*)` bound to
the first `k` characters: `(.*)` cannot cross a newline, the two wildcard
dots match any character except newline, `(\d)` needs a decimal digit, and
`[^.]+$` needs a nonempty dot-free remainder. -/
def inferAt (s : List Char) (k : Nat) : Bool :=
  (s.take k).all (fun c => c ≠ '\n') &&
    match s.drop k with
    | c1 :: d :: c2 :: rest =>
      c1 ≠ '\n' && d.isDigit && c2 ≠ '\n' && !rest.isEmpty &&
        rest.all (fun c => c ≠ '.')
    | _ => false

/-- Greedy resolution of `(.*)`: the largest split position `≤ b` at which
the rest of the pattern matches. -/
def inferSearch (s : List Char) : Nat → Option Nat
  | 0 => if inferAt s 0 then some 0 else none
  | k + 1 => if inferAt s (k + 1) then some (k + 1) else inferSearch s k

/-- `re.match(r'(.*).(\d).[^.]+$', basename)`: on success, group 1 (the name)
and group 2 (the single-digit section). -/
def infer_name_section (s : List Char) : Option (List Char × List Char) :=
  match inferSearch s s.length with
  | some k =>
    match s.drop k with
    | _ :: d :: _ => some (s.take k, [d])
    | _ => none
  | none => none

/-- The driver's name/section resolution: explicit values win; otherwise the
groups of the filename match fill the gaps; if the regex fails and either
value is missing, the driver exits fatally. -/
def resolve_name_section (basename : List Char)
    (name? sect? : Option (List Char)) : Except (List Char) (List Char × List Char) :=
  match infer_name_section basename with
  | none =>
    match name?, sect? with
    | some n, some s => Except.ok (n, s)
    | _, _ =>
      Except.error "Both -name and -section must be passed for invalid filenames.".data
  | some (g1, g2) => Except.ok (name?.getD g1, sect?.getD g2)

/-- `getattr(renderer, 'description', '')` at HTML template-assembly time:
the stored description, or the empty string when it was never set. -/
def templateDescription (d : Option (List Char)) : List Char := d.getD []

/-! ## Event-stream model of one HTML conversion

The parser calls renderer methods in document order and concatenates their
results.  Only the header method touches renderer state (`description`); the
other `HtmlRenderer`/`mistune` methods are pure functions from their inputs
to markup, so they are represented by a `chunk` event carrying their
output. -/

inductive Event where
  | header (text : List Char) (level : Nat) (raw : List Char)
  | reference (name sect : List Char)
  | chunk (out : List Char)

/-- True when the event is not a level-1 header. -/
def notLevel1 : Event → Bool
  | .header _ level _ => level ≠ 1
  | _ => true

/-- One renderer call of an HTML conversion: takes the current description
state, returns the new state and the emitted markup. -/
def htmlStep (idx : List (List Char × List Char)) (st : Option (List Char)) :
    Event → Except (List Char) (Option (List Char) × List Char)
  | .header t l r =>
    match html_header t l r with
    | Except.error e => Except.error e
    | Except.ok (d, out) => Except.ok (d <|> st, out)
  | .reference n s => Except.ok (st, html_reference idx n s)
  | .chunk o => Except.ok (st, o)

/-- Run a whole event stream, threading the description state and
concatenating the emitted markup. -/
def runHtml (idx : List (List Char × List Char)) (st : Option (List Char)) :
    List Event → Except (List Char) (Option (List Char) × List Char)
  | [] => Except.ok (st, [])
  | e :: es =>
    match htmlStep idx st e with
    | Except.error err => Except.error err
    | Except.ok (st1, out) =>
      match runHtml idx st1 es with
      | Except.error err => Except.error err
      | Except.ok (st2, outs) => Except.ok (st2, out ++ outs)

/-- Spec-side description of the Roff plain-text escaping: each backslash
becomes an escaped backslash, each period becomes a backslash-escaped
period, every other character is kept; because the code escapes backslashes
first, the backslashes it introduces for periods are not re-escaped. -/
def escSpec (c : Char) : List Char :=
  if c = '\\' then "\\\\".data else if c = '.' then "\\.".data else [c]

/-- The text a list item contributes after its leading sentinel:
`'\n' ++ text ++ '\n'`. -/
def itemChunk (t : List Char) : List Char := '\n' :: (t ++ ['\n'])

/-- Events of one Roff conversion (constructs whose renderer methods this
development models; all remaining constructs are pure string functions and
are represented by a `chunk` carrying their output). -/
inductive REvent where
  | header (text : List Char) (level : Nat) (raw : List Char)
  | text (t : List Char)
  | codespan (t : List Char)
  | linebreak
  | chunk (out : List Char)

/-- One renderer call of a Roff conversion. -/
def roffStep (name sect : List Char) (st : Option (List Char)) :
    REvent → Except (List Char) (Option (List Char) × List Char)
  | .header t l r =>
    match roff_header name sect t l r with
    | Except.error e => Except.error e
    | Except.ok (d, out) => Except.ok (d <|> st, out)
  | .text t => Except.ok (st, roff_text t)
  | .codespan t => Except.ok (st, roff_codespan t)
  | .linebreak =>
    match roff_linebreak with
    | Except.error e => Except.error e
    | Except.ok out => Except.ok (st, out)
  | .chunk o => Except.ok (st, o)

/-- Run a whole Roff event stream, threading the description state and
concatenating the emitted markup. -/
def runRoff (name sect : List Char) (st : Option (List Char)) :
    List REvent → Except (List Char) (Option (List Char) × List Char)
  | [] => Except.ok (st, [])
  | e :: es =>
    match roffStep name sect st e with
    | Except.error err => Except.error err
    | Except.ok (st1, out) =>
      match runRoff name sect st1 es with
      | Except.error err => Except.error err
      | Except.ok (st2, outs) => Except.ok (st2, out ++ outs)

/-! ## Helper lemmas about the string primitives -/

theorem leadsWith_prepend (p t : List Char) : leadsWith p (p ++ t) = true := by
  induction p with
  | nil => rfl
  | cons c cs ih => simp [leadsWith, ih]

theorem leadsWith_nil (p : List Char) (h : p ≠ []) : leadsWith p [] = false := by
  cases p with
  | nil => exact absurd rfl h
  | cons c cs => rfl

/-- If `pat` occurs at position `i` of `raw` and at no earlier position, then
the scan of `splitFirst` stops exactly at `i`. -/
theorem splitFirst_of_first (pat : List Char) (hpat : pat ≠ []) :
    ∀ (raw : List Char) (i : Nat),
      leadsWith pat (raw.drop i) = true →
      (∀ j < i, leadsWith pat (raw.drop j) = false) →
      splitFirst pat raw = some (raw.take i, raw.drop (i + pat.length))
  | [], i, hi, _ => by
    rw [List.drop_nil] at hi
    rw [leadsWith_nil pat hpat] at hi
    exact absurd hi (by simp)
  | c :: rest, 0, hi, _ => by
    simp only [List.drop] at hi
    simp [splitFirst, hi]
  | c :: rest, i + 1, hi, hmin => by
    have h0 : leadsWith pat (c :: rest) = false := by
      have := hmin 0 (Nat.succ_pos i)
      simpa using this
    have ih := splitFirst_of_first pat hpat rest i
      (by simpa using hi)
      (fun j hj => by simpa using hmin (j + 1) (Nat.succ_lt_succ hj))
    simp only [splitFirst, h0]
    simp only [Bool.false_eq_true, if_false, ih]
    have hdrop : (c :: rest).drop (i + 1 + pat.length) = rest.drop (i + pat.length) := by
      rw [Nat.add_right_comm]
      simp [List.drop_succ_cons]
    simp [hdrop]

/-- If `pat` occurs nowhere in `raw`, the scan fails. -/
theorem splitFirst_none (pat : List Char) (hpat : pat ≠ []) :
    ∀ raw : List Char,
      (∀ j < raw.length, leadsWith pat (raw.drop j) = false) →
      splitFirst pat raw = none
  | [], _ => rfl
  | c :: rest, h => by
    have h0 : leadsWith pat (c :: rest) = false := by simpa using h 0 (by simp)
    have ih := splitFirst_none pat hpat rest
      (fun j hj => by simpa using h (j + 1) (by simpa using Nat.succ_lt_succ hj))
    simp [splitFirst, h0, ih]

theorem all_takeWhile (p : Char → Bool) :
    ∀ l : List Char, ∀ c ∈ l.takeWhile p, p c = true := by
  intro l
  induction l with
  | nil => intro c hc; simp [List.takeWhile] at hc
  | cons a rest ih =>
    intro c hc
    by_cases ha : p a = true
    · rw [List.takeWhile_cons, if_pos ha] at hc
      rcases List.mem_cons.mp hc with rfl | hc
      · exact ha
      · exact ih c hc
    · rw [List.takeWhile_cons, if_neg ha] at hc
      simp at hc

theorem takeWhile_cat_drop (p : Char → Bool) :
    ∀ l : List Char, l.takeWhile p ++ l.drop (l.takeWhile p).length = l := by
  intro l
  induction l with
  | nil => rfl
  | cons a rest ih =>
    by_cases ha : p a = true
    · rw [List.takeWhile_cons, if_pos ha]
      simpa using ih
    · rw [List.takeWhile_cons, if_neg ha]
      simp

theorem takeWhile_cat (p : Char → Bool) (ys : List Char) :
    ∀ xs : List Char, (∀ c ∈ xs, p c = true) →
      (xs ++ ys).takeWhile p = xs ++ ys.takeWhile p := by
  intro xs
  induction xs with
  | nil => intro _; rfl
  | cons a rest ih =>
    intro h
    have ha : p a = true := h a (List.mem_cons_self a rest)
    rw [List.cons_append, List.takeWhile_cons, if_pos ha, ih fun c hc => h c (List.mem_cons_of_mem a hc)]
    rfl

theorem drop_cat (xs ys : List Char) : (xs ++ ys).drop xs.length = ys := by
  simp

/-! ## Claim theorems -/

/-- C1, counterexample: the claim lets IDENT range over letters, digits,
hyphen, underscore and dot, so on `a2(3)` (IDENT `a2`, DIGITS `3`) the rule
would have to fire with `Reference("a2", "3")`; but the code's character
class `[A-Za-z-_.]` contains no digits, so the rule does not match. -/
theorem mrkd_c1_counterexample :
    identChar '2' = false ∧ Char.isDigit '2' = true ∧
      reference_match "a2(3)".data = none := by
  decide

/-- C1 (amended): the inline citation rule fires exactly on `IDENT(DIGITS)`
where IDENT is a non-empty string over letters, hyphen, underscore and dot
(no digits), immediately followed by one or more digits in parentheses; on a
match it yields `(name, section)` with name the identifier and section the
digit string; any input not of this shape yields no match (falls through to
plain text). -/
theorem mrkd_c1_amended (s name sect : List Char) :
    reference_match s = some (name, sect) ↔
      (name ≠ [] ∧ (∀ c ∈ name, identChar c = true) ∧
       sect ≠ [] ∧ (∀ c ∈ sect, c.isDigit = true) ∧
       ∃ rest, s = name ++ '(' :: (sect ++ ')' :: rest)) := by
  constructor
  · intro h
    by_cases hid : (s.takeWhile identChar).isEmpty
    · simp [reference_match, hid] at h
    · cases hdrop : s.drop (s.takeWhile identChar).length with
      | nil => simp [reference_match, hid, hdrop] at h
      | cons c r2 =>
        by_cases hc : c = '('
        · subst hc
          by_cases hdig : (r2.takeWhile Char.isDigit).isEmpty
          · simp [reference_match, hid, hdrop, hdig] at h
          · cases hdrop2 : r2.drop (r2.takeWhile Char.isDigit).length with
            | nil => simp [reference_match, hid, hdrop, hdig, hdrop2] at h
            | cons c2 r3 =>
              by_cases hc2 : c2 = ')'
              · subst hc2
                simp only [reference_match, hid, hdrop, hdig, hdrop2,
                  Bool.false_eq_true, if_false, Option.some.injEq, Prod.mk.injEq] at h
                obtain ⟨rfl, rfl⟩ := h
                refine ⟨by simpa using hid, all_takeWhile identChar s,
                        by simpa using hdig, all_takeWhile Char.isDigit r2, r3, ?_⟩
                have h1 := takeWhile_cat_drop identChar s
                have h2 := takeWhile_cat_drop Char.isDigit r2
                rw [hdrop] at h1
                rw [hdrop2] at h2
                conv_lhs => rw [← h1, ← h2]
              · simp [reference_match, hid, hdrop, hdig, hdrop2, hc2] at h
        · simp [reference_match, hid, hdrop, hc] at h
  · rintro ⟨hn, hnc, hs, hsc, rest, rfl⟩
    have htw : ((name ++ '(' :: (sect ++ ')' :: rest)).takeWhile identChar) = name := by
      rw [takeWhile_cat identChar _ name hnc]
      simp [List.takeWhile_cons, identChar]
    have htw2 : ((sect ++ ')' :: rest).takeWhile Char.isDigit) = sect := by
      rw [takeWhile_cat Char.isDigit _ sect hsc]
      simp [List.takeWhile_cons]
    simp only [reference_match, htw, htw2]
    rw [drop_cat name ('(' :: (sect ++ ')' :: rest))]
    simp only [List.drop_succ_cons, List.drop_zero]
    simp [htw2, drop_cat sect (')' :: rest), List.isEmpty_iff, hn, hs]

/-- C1 witness: the amended rule fires on `foo(3) x`. -/
theorem mrkd_c1_witness :
    reference_match "foo(3) x".data = some ("foo".data, "3".data) :=
  (mrkd_c1_amended "foo(3) x".data "foo".data "3".data).mpr
    ⟨by decide, by decide, by decide, by decide, " x".data, by decide⟩

/-- C4: whenever the raw level-1 header text decomposes as
`pre ++ "--" ++ rest` with no occurrence of `--` starting inside `pre` (that
is, `rest` is exactly the text after the first `--`), both renderers store
`description = rest` with surrounding whitespace stripped — later `--`
occurrences inside `rest` are untouched — while the displayed header text is
`text` with every `--` replaced by `-`. -/
theorem mrkd_c4 (name sect text raw pre rest : List Char)
    (hdecomp : raw = pre ++ "--".data ++ rest)
    (hfirst : ∀ j < pre.length, leadsWith "--".data (raw.drop j) = false) :
    roff_header name sect text 1 raw
      = Except.ok (some (pyStrip rest),
          pyLines [thLine name sect, ".SH NAME".data,
                   pyReplace text "--".data "-".data]) ∧
    html_header text 1 raw
      = Except.ok (some (pyStrip rest),
          pyLines [htag 2 (slug raw) "NAME".data,
                   pyReplace text "--".data "-".data]) := by
  have h1 : leadsWith "--".data (raw.drop pre.length) = true := by
    subst hdecomp
    rw [List.append_assoc, drop_cat]
    exact leadsWith_prepend _ _
  have hsp := splitFirst_of_first "--".data (by decide) raw pre.length h1 hfirst
  have htake : raw.take pre.length = pre := by
    subst hdecomp
    rw [List.append_assoc]
    simp [List.take_left]
  have hdrop : raw.drop (pre.length + "--".data.length) = rest := by
    subst hdecomp
    have : (pre ++ "--".data).length = pre.length + "--".data.length := by simp
    rw [← this, drop_cat]
  rw [htake, hdrop] at hsp
  exact ⟨by simp [roff_header, hsp], by simp [html_header, hsp]⟩

/-- C4 witness at the spec's example header. -/
theorem mrkd_c4_witness :
    roff_header "mrkd".data "1".data "mrkd -- write man pages in markdown".data 1
        "mrkd -- write man pages in markdown".data
      = Except.ok (some "write man pages in markdown".data,
          ".TH \"MRKD\" \"1\" \"\" \"\" \"mrkd\"\n.SH NAME\nmrkd - write man pages in markdown\n".data) :=
  ((mrkd_c4 "mrkd".data "1".data "mrkd -- write man pages in markdown".data
      "mrkd -- write man pages in markdown".data "mrkd ".data
      " write man pages in markdown".data (by decide) (by decide)).1).trans (by rfl)

/-- C5: a level-1 header whose raw text contains no `--` anywhere is a fatal
error in both renderers, with a diagnostic naming the offending header; the
hypothesis (no occurrence of `--` at any position) is equivalent to saying
the text admits no decomposition around `--`, which the last conjunct
records. -/
theorem mrkd_c5 (name sect text raw : List Char)
    (h : ∀ j < raw.length, leadsWith "--".data (raw.drop j) = false) :
    roff_header name sect text 1 raw = Except.error ("Invalid header: ".data ++ raw) ∧
    html_header text 1 raw = Except.error ("Invalid header: ".data ++ raw) ∧
    ∀ pre rest, raw ≠ pre ++ "--".data ++ rest := by
  have hsp := splitFirst_none "--".data (by decide) raw h
  refine ⟨by simp [roff_header, hsp], by simp [html_header, hsp], ?_⟩
  intro pre rest heq
  have hlt : pre.length < raw.length := by
    subst heq; simp
  have hlw : leadsWith "--".data (raw.drop pre.length) = true := by
    subst heq
    rw [List.append_assoc, drop_cat]
    exact leadsWith_prepend _ _
  rw [h pre.length hlt] at hlw
  exact absurd hlw (by simp)

/-- C5 witness: the header `# mrkd` (raw text `mrkd`) is fatal. -/
theorem mrkd_c5_witness :
    roff_header "mrkd".data "1".data "mrkd".data 1 "mrkd".data
      = Except.error "Invalid header: mrkd".data :=
  ((mrkd_c5 "mrkd".data "1".data "mrkd".data "mrkd".data (by decide)).1).trans (by rfl)

/-- C2, counterexample: for the document whose first level-1 header raw text
is `foo -- a tool`, the claim requires the heading's id attribute to be
`name`; the code derives the id from the raw header text instead, producing
`foo----a-tool`, and the rendered heading contains no `id="name"`. -/
theorem mrkd_c2_counterexample :
    html_header "foo -- a tool".data 1 "foo -- a tool".data
      = Except.ok (some "a tool".data,
          "<h2 id=\"foo----a-tool\"><a class=\"hl\" href=\"#foo----a-tool\">NAME</a></h2>\nfoo - a tool\n".data) ∧
    hasSub "id=\"name\"".data
      "<h2 id=\"foo----a-tool\"><a class=\"hl\" href=\"#foo----a-tool\">NAME</a></h2>\nfoo - a tool\n".data
      = false :=
  ⟨by rfl, by decide⟩

/-- C2 (amended): for the level-1 header with raw text `foo -- a tool`, the
HTML renderer emits a level-2 heading whose id attribute is the slug of the
raw text (`foo----a-tool`, not `name`), whose visible text is the literal
NAME wrapped in a self-linking anchor, with the raw line (each `--` replaced
by `-`) appended as trailing text after the heading, and stores description
`a tool`. -/
theorem mrkd_c2_amended :
    slug "foo -- a tool".data = "foo----a-tool".data ∧
    html_header "foo -- a tool".data 1 "foo -- a tool".data
      = Except.ok (some "a tool".data,
          pyLines [htag 2 (slug "foo -- a tool".data) "NAME".data,
                   "foo - a tool".data]) :=
  ⟨by decide, by rfl⟩

/-! Lemmas about filename inference. -/

theorem inferAt_shape (s : List Char) (k : Nat) (h : inferAt s k = true) :
    ∃ c1 d c2 rest, s.drop k = c1 :: d :: c2 :: rest ∧ d.isDigit = true ∧
      rest ≠ [] ∧ ∀ c ∈ rest, c ≠ '.' := by
  unfold inferAt at h
  cases hdrop : s.drop k with
  | nil => rw [hdrop] at h; simp at h
  | cons c1 t1 =>
    cases t1 with
    | nil => rw [hdrop] at h; simp at h
    | cons d t2 =>
      cases t2 with
      | nil => rw [hdrop] at h; simp at h
      | cons c2 rest =>
        rw [hdrop] at h
        simp only [Bool.and_eq_true] at h
        obtain ⟨-, ⟨⟨⟨-, hd⟩, -⟩, hne⟩, hall⟩ := h
        refine ⟨c1, d, c2, rest, rfl, hd, ?_, ?_⟩
        · intro hcon; subst hcon; simp at hne
        · intro c hc
          exact of_decide_eq_true (List.all_eq_true.mp hall c hc)

theorem inferAt_le (s : List Char) (k : Nat) (h : inferAt s k = true) :
    k + 4 ≤ s.length := by
  obtain ⟨c1, d, c2, rest, hdrop, -, hne, -⟩ := inferAt_shape s k h
  have h1 : (s.drop k).length = s.length - k := by simp
  rw [hdrop] at h1
  have h2 : 1 ≤ rest.length := by
    cases rest with
    | nil => exact absurd rfl hne
    | cons _ _ => simp
  simp only [List.length_cons] at h1
  omega

theorem inferSearch_none (s : List Char) :
    ∀ b, inferSearch s b = none → ∀ k, k ≤ b → inferAt s k = false := by
  intro b
  induction b with
  | zero =>
    intro h k hk
    have hk0 : k = 0 := Nat.le_zero.mp hk
    subst hk0
    unfold inferSearch at h
    by_cases h0 : inferAt s 0 = true
    · rw [if_pos h0] at h; exact absurd h (by simp)
    · simpa using h0
  | succ b ih =>
    intro h k hk
    unfold inferSearch at h
    by_cases hb : inferAt s (b + 1) = true
    · rw [if_pos hb] at h; exact absurd h (by simp)
    · rw [if_neg hb] at h
      rcases Nat.lt_or_ge k (b + 1) with hlt | hge
      · exact ih h k (Nat.lt_succ_iff.mp hlt)
      · have hkb : k = b + 1 := Nat.le_antisymm hk hge
        subst hkb; simpa using hb

theorem inferSearch_some_at (s : List Char) :
    ∀ b k, inferSearch s b = some k → inferAt s k = true := by
  intro b
  induction b with
  | zero =>
    intro k h
    unfold inferSearch at h
    by_cases h0 : inferAt s 0 = true
    · rw [if_pos h0] at h
      cases h; exact h0
    · rw [if_neg h0] at h; exact absurd h (by simp)
  | succ b ih =>
    intro k h
    unfold inferSearch at h
    by_cases hb : inferAt s (b + 1) = true
    · rw [if_pos hb] at h
      cases h; exact hb
    · rw [if_neg hb] at h; exact ih k h

/-- C3, counterexample: `ab1cd` is not of the form `basename.N.ext` (it has
no dots at all), and neither name nor section is supplied, so by the claim
the driver must exit fatally; but the regex's unescaped dots are wildcards,
so the code succeeds and infers name `a`, section `1`. -/
theorem mrkd_c3_counterexample :
    resolve_name_section "ab1cd".data none none
      = Except.ok ("a".data, "1".data) := by rfl

/-- C3 (amended): because the dots of `(.*).(\d).[^.]+$` are unescaped
wildcards, inference succeeds exactly when some split position matches
`inferAt` (any character, a digit, any character, then a nonempty dot-free
tail) — a strictly larger class than `basename.N.ext`; when inference
fails and either name or section is missing, the driver exits fatally;
when it succeeds, its groups fill the values not explicitly supplied; on
`mrkd.1.md` it yields name `mrkd`, section `1`. -/
theorem mrkd_c3_amended :
    (∀ s : List Char, (infer_name_section s).isSome = true ↔ ∃ k, inferAt s k = true) ∧
    (∀ (s : List Char) (n? t? : Option (List Char)), infer_name_section s = none →
      (n? = none ∨ t? = none) →
      resolve_name_section s n? t?
        = Except.error "Both -name and -section must be passed for invalid filenames.".data) ∧
    (∀ (s : List Char) (n? t? : Option (List Char)) (g1 g2 : List Char),
      infer_name_section s = some (g1, g2) →
      resolve_name_section s n? t? = Except.ok (n?.getD g1, t?.getD g2)) ∧
    resolve_name_section "mrkd.1.md".data none none
      = Except.ok ("mrkd".data, "1".data) := by
  refine ⟨?_, ?_, ?_, by rfl⟩
  · intro s
    constructor
    · intro h
      unfold infer_name_section at h
      cases hsearch : inferSearch s s.length with
      | none => rw [hsearch] at h; simp at h
      | some k => exact ⟨k, inferSearch_some_at s s.length k hsearch⟩
    · rintro ⟨k, hk⟩
      have hkle : k ≤ s.length := by have := inferAt_le s k hk; omega
      unfold infer_name_section
      cases hsearch : inferSearch s s.length with
      | none =>
        rw [inferSearch_none s s.length hsearch k hkle] at hk
        exact absurd hk (by simp)
      | some k2 =>
        obtain ⟨c1, d, c2, rest, hdrop, -, -, -⟩ :=
          inferAt_shape s k2 (inferSearch_some_at s s.length k2 hsearch)
        simp [hdrop]
  · intro s n? t? hinf hmiss
    unfold resolve_name_section
    rw [hinf]
    cases n? with
    | none => rfl
    | some n =>
      cases t? with
      | none => rfl
      | some t =>
        rcases hmiss with h | h <;> exact absurd h (by simp)
  · intro s n? t? g1 g2 hinf
    unfold resolve_name_section
    rw [hinf]

/-- C3 witness: a dot-less basename with no digit fails inference, and with
neither name nor section supplied the driver errors out. -/
theorem mrkd_c3_witness :
    resolve_name_section "x-y".data none none
      = Except.error "Both -name and -section must be passed for invalid filenames.".data :=
  mrkd_c3_amended.2.1 "x-y".data none none (by rfl) (Or.inl rfl)

/-- C7: if the composite key `name(section)` maps to URL `U` in the index,
the HTML renderer wraps the bold name plus `(section)` in an anchor with
href exactly `U`; if the key is absent the same text is emitted with no
anchor and no error; and the Roff renderer's citation output contains no
`<` at all (hence no anchor), for any name over the citation character
class and digit-only section, regardless of any index. -/
theorem mrkd_c7 (idx : List (List Char × List Char)) (text sect : List Char) :
    (∀ url, lookupIndex idx (text ++ '(' :: (sect ++ [')'])) = some url →
      html_reference idx text sect
        = "<a href=\"".data ++ url ++ "\">".data ++
            (html_double_emphasis text ++ '(' :: (sect ++ [')'])) ++ "</a>".data) ∧
    (lookupIndex idx (text ++ '(' :: (sect ++ [')'])) = none →
      html_reference idx text sect
        = html_double_emphasis text ++ '(' :: (sect ++ [')'])) ∧
    ((∀ c ∈ text, identChar c = true) → (∀ c ∈ sect, c.isDigit = true) →
      '<' ∉ roff_reference text sect) := by
  refine ⟨?_, ?_, ?_⟩
  · intro url h
    simp [html_reference, h]
  · intro h
    simp [html_reference, h]
  · intro ht hs hmem
    unfold roff_reference roff_double_emphasis at hmem
    rcases List.mem_append.mp hmem with h1 | h2
    · rcases List.mem_append.mp h1 with h3 | h4
      · rcases List.mem_append.mp h3 with h5 | h6
        · exact absurd h5 (by decide)
        · exact absurd (ht _ h6) (by decide)
      · exact absurd h4 (by decide)
    · rcases List.mem_cons.mp h2 with h5 | h6
      · exact absurd h5 (by decide)
      · rcases List.mem_append.mp h6 with h7 | h8
        · exact absurd (hs _ h7) (by decide)
        · exact absurd h8 (by decide)

/-- C7 witness: the citation `bar(5)` with the spec's example index. -/
theorem mrkd_c7_witness :
    html_reference [("bar(5)".data, "http://example.com/bar".data)]
        "bar".data "5".data
      = "<a href=\"http://example.com/bar\"><b>bar</b>(5)</a>".data :=
  ((mrkd_c7 [("bar(5)".data, "http://example.com/bar".data)] "bar".data "5".data).1
    "http://example.com/bar".data (by decide)).trans (by rfl)

/-! Lemmas for the Roff text escaping. -/

theorem pyReplaceFuel_single (c : Char) (rep : List Char) :
    ∀ (fuel : Nat) (s : List Char), s.length ≤ fuel →
      pyReplaceFuel [c] rep fuel s
        = s.flatMap fun x => if x = c then rep else [x] := by
  intro fuel
  induction fuel with
  | zero =>
    intro s hs
    have hnil : s = [] := List.eq_nil_of_length_eq_zero (Nat.le_zero.mp hs)
    subst hnil; rfl
  | succ fuel ih =>
    intro s hs
    cases s with
    | nil => rfl
    | cons x rest =>
      have hrest : rest.length ≤ fuel := by
        simpa using Nat.le_of_succ_le_succ (by simpa using hs)
      simp only [pyReplaceFuel]
      by_cases hx : x = c
      · subst hx
        rw [if_pos ⟨by simp, by simp [leadsWith]⟩]
        simp only [List.length_cons, List.length_nil, List.drop_succ_cons, List.drop_zero]
        rw [ih rest hrest]
        simp [List.flatMap_cons]
      · rw [if_neg (fun hcon => by
          have hl := hcon.2
          simp [leadsWith] at hl
          exact hx hl.symm)]
        rw [ih rest hrest]
        simp [List.flatMap_cons, hx]

theorem pyReplace_single (c : Char) (rep s : List Char) :
    pyReplace s [c] rep = s.flatMap fun x => if x = c then rep else [x] :=
  pyReplaceFuel_single c rep s.length s (Nat.le_refl _)

theorem roff_text_bind (s : List Char) : roff_text s = s.flatMap escSpec := by
  unfold roff_text pyReplace
  rw [pyReplaceFuel_single '\\' _ _ s (Nat.le_refl _)]
  rw [pyReplaceFuel_single '.' _ _ _ (Nat.le_refl _)]
  induction s with
  | nil => rfl
  | cons x rest ih =>
    rw [List.flatMap_cons, List.flatMap_cons, List.flatMap_append, ih]
    congr 1
    by_cases h1 : x = '\\'
    · subst h1; rfl
    · by_cases h2 : x = '.'
      · subst h2; rfl
      · simp [escSpec, h1, h2]

theorem escSpec_dots (s : List Char) :
    ∀ i, (s.flatMap escSpec)[i]? = some '.' →
      ∃ j, i = j + 1 ∧ (s.flatMap escSpec)[j]? = some '\\' := by
  induction s with
  | nil => intro i h; simp at h
  | cons x rest ih =>
    intro i h
    rw [List.flatMap_cons] at h ⊢
    by_cases h1 : x = '\\'
    · subst h1
      rw [show escSpec '\\' = ['\\', '\\'] from rfl] at h ⊢
      cases i with
      | zero => simp at h
      | succ i1 =>
        cases i1 with
        | zero => simp at h
        | succ j =>
          have h2 : (rest.flatMap escSpec)[j]? = some '.' := by simpa using h
          obtain ⟨j2, rfl, hj2⟩ := ih j h2
          exact ⟨j2 + 2, by omega, by simpa using hj2⟩
    · by_cases h2 : x = '.'
      · subst h2
        rw [show escSpec '.' = ['\\', '.'] from rfl] at h ⊢
        cases i with
        | zero => simp at h
        | succ i1 =>
          cases i1 with
          | zero => exact ⟨0, rfl, by simp⟩
          | succ j =>
            have h3 : (rest.flatMap escSpec)[j]? = some '.' := by simpa using h
            obtain ⟨j2, rfl, hj2⟩ := ih j h3
            exact ⟨j2 + 2, by omega, by simpa using hj2⟩
      · rw [show escSpec x = [x] by simp [escSpec, h1, h2]] at h ⊢
        cases i with
        | zero =>
          simp at h
          exact absurd h h2
        | succ j =>
          have h3 : (rest.flatMap escSpec)[j]? = some '.' := by simpa using h
          obtain ⟨j2, rfl, hj2⟩ := ih j h3
          exact ⟨j2 + 1, by omega, by simpa using hj2⟩

/-- C8: the Roff plain-text output is the input with every backslash and
every literal period escaped by a prefixed backslash (the per-character map
`escSpec`, in which period-escaping backslashes are not re-escaped); every
period in the output is immediately preceded by a backslash; and backtick
code spans render as bold `\fB…\fR`. -/
theorem mrkd_c8 (s : List Char) :
    roff_text s = s.flatMap escSpec ∧
    (∀ i, (roff_text s)[i]? = some '.' →
      ∃ j, i = j + 1 ∧ (roff_text s)[j]? = some '\\') ∧
    (∀ t, roff_codespan t = "\\fB".data ++ (t ++ "\\fR".data)) := by
  refine ⟨roff_text_bind s, ?_, fun t => rfl⟩
  rw [roff_text_bind s]
  exact escSpec_dots s

/-- C8 witness: in `v1.0.` the period at output index 3 is preceded by the
escaping backslash at index 2. -/
theorem mrkd_c8_witness :
    ∃ j, (3 : Nat) = j + 1 ∧ (roff_text "v1.0.".data)[j]? = some '\\' :=
  (mrkd_c8 "v1.0.".data).2.1 3 (by rfl)

/-- C9: the Roff line-break handler always fails (`assert 0`), and any Roff
conversion whose event stream contains a line break produces an error, never
a successful output — an inline line break is never silently dropped. -/
theorem mrkd_c9 (name sect : List Char) (st : Option (List Char))
    (pre post : List REvent) :
    roff_linebreak = Except.error "AssertionError".data ∧
    ∃ err, runRoff name sect st (pre ++ REvent.linebreak :: post)
      = Except.error err := by
  refine ⟨rfl, ?_⟩
  induction pre generalizing st with
  | nil => exact ⟨"AssertionError".data, rfl⟩
  | cons e pre ih =>
    cases hstep : roffStep name sect st e with
    | error err => exact ⟨err, by simp [runRoff, hstep]⟩
    | ok p =>
      obtain ⟨st1, out⟩ := p
      obtain ⟨err, herr⟩ := ih st1
      exact ⟨err, by simp [runRoff, hstep, herr]⟩

/-- C10: an HTML conversion of a document with no level-1 header completes
without error, never sets the description, and the template-assembly default
supplies the empty string for it. -/
theorem mrkd_c10 (idx : List (List Char × List Char)) (events : List Event)
    (h : events.all notLevel1 = true) :
    (∃ out, runHtml idx none events = Except.ok (none, out)) ∧
    templateDescription none = [] := by
  refine ⟨?_, rfl⟩
  induction events with
  | nil => exact ⟨[], rfl⟩
  | cons e es ih =>
    rw [List.all_cons, Bool.and_eq_true] at h
    obtain ⟨he, hes⟩ := h
    obtain ⟨out, hout⟩ := ih hes
    cases e with
    | header t l r =>
      have hl : ¬l = 1 := by simpa [notLevel1] using he
      have hh : html_header t l r
          = Except.ok (none, pyLines [htag l (slug r) t, []]) := by
        unfold html_header
        rw [if_neg hl]
      exact ⟨pyLines [htag l (slug r) t, []] ++ out,
        by simp [runHtml, htmlStep, hh, hout]⟩
    | reference n s =>
      exact ⟨html_reference idx n s ++ out, by simp [runHtml, htmlStep, hout]⟩
    | chunk o =>
      exact ⟨o ++ out, by simp [runHtml, htmlStep, hout]⟩

/-- C10 witness: a document with only a level-2 header and plain content. -/
theorem mrkd_c10_witness :
    ∃ out, runHtml [] none
        [Event.header "USAGE".data 2 "USAGE".data, Event.chunk "hi".data]
      = Except.ok (none, out) :=
  (mrkd_c10 [] [Event.header "USAGE".data 2 "USAGE".data, Event.chunk "hi".data]
    (by decide)).1

/-! Lemmas for the list sentinel invariant. -/

theorem list_item_eq (t : List Char) : list_item t = '\x00' :: itemChunk t := rfl

theorem splitOnChar_ne_nil (sep : Char) : ∀ l, splitOnChar sep l ≠ [] := by
  intro l
  cases l with
  | nil => simp [splitOnChar]
  | cons c rest =>
    unfold splitOnChar
    by_cases hc : c = sep
    · simp [hc]
    · rw [if_neg hc]
      cases h : splitOnChar sep rest with
      | nil => simp
      | cons s ss => simp

theorem splitOnChar_sepfree (sep : Char) :
    ∀ l, (∀ c ∈ l, c ≠ sep) → splitOnChar sep l = [l] := by
  intro l
  induction l with
  | nil => intro _; rfl
  | cons c rest ih =>
    intro h
    have hc : c ≠ sep := h c (List.mem_cons_self c rest)
    unfold splitOnChar
    rw [if_neg hc, ih fun x hx => h x (List.mem_cons_of_mem c hx)]

theorem splitOnChar_cat (sep : Char) (ys : List Char) :
    ∀ xs, (∀ c ∈ xs, c ≠ sep) →
      ∃ hd tl, splitOnChar sep ys = hd :: tl ∧
        splitOnChar sep (xs ++ ys) = (xs ++ hd) :: tl := by
  intro xs
  induction xs with
  | nil =>
    intro _
    cases h : splitOnChar sep ys with
    | nil => exact absurd h (splitOnChar_ne_nil sep ys)
    | cons hd tl => exact ⟨hd, tl, rfl, by simp [h]⟩
  | cons x xs ih =>
    intro h
    obtain ⟨hd, tl, h1, h2⟩ := ih fun c hc => h c (List.mem_cons_of_mem x hc)
    refine ⟨hd, tl, h1, ?_⟩
    have hx : x ≠ sep := h x (List.mem_cons_self x xs)
    simp only [List.cons_append]
    unfold splitOnChar
    rw [if_neg hx, h2]

theorem itemChunk_sepfree (t : List Char) (ht : ∀ c ∈ t, c ≠ '\x00') :
    ∀ c ∈ itemChunk t, c ≠ '\x00' := by
  intro c hc
  unfold itemChunk at hc
  rcases List.mem_cons.mp hc with rfl | hc2
  · decide
  · rcases List.mem_append.mp hc2 with h3 | h4
    · exact ht c h3
    · simp at h4; subst h4; decide

theorem split_body :
    ∀ (rest : List (List Char)) (t : List Char),
      (∀ c ∈ t, c ≠ '\x00') →
      (∀ u ∈ rest, ∀ c ∈ u, c ≠ '\x00') →
      splitOnChar '\x00' (((t :: rest).map list_item).flatten)
        = [] :: (t :: rest).map itemChunk := by
  intro rest
  induction rest with
  | nil =>
    intro t ht _
    simp only [List.map_cons, List.map_nil, List.flatten_cons, List.flatten_nil,
      List.append_nil, list_item_eq]
    unfold splitOnChar
    rw [if_pos rfl, splitOnChar_sepfree _ _ (itemChunk_sepfree t ht)]
  | cons t2 rest2 ih =>
    intro t ht hrest
    have ht2 : ∀ c ∈ t2, c ≠ '\x00' := hrest t2 (List.mem_cons_self t2 rest2)
    have hrest2 : ∀ u ∈ rest2, ∀ c ∈ u, c ≠ '\x00' :=
      fun u hu => hrest u (List.mem_cons_of_mem t2 hu)
    have ihres := ih t2 ht2 hrest2
    obtain ⟨hd, tl, h1, h2⟩ :=
      splitOnChar_cat '\x00' (((t2 :: rest2).map list_item).flatten) (itemChunk t)
        (itemChunk_sepfree t ht)
    rw [ihres] at h1
    obtain ⟨rfl, rfl⟩ : hd = [] ∧ tl = (t2 :: rest2).map itemChunk := by
      have h3 := h1.symm
      rw [List.cons.injEq] at h3
      exact h3
    have hexp : (((t :: t2 :: rest2).map list_item).flatten)
        = '\x00' :: (itemChunk t ++ ((t2 :: rest2).map list_item).flatten) := by
      rw [List.map_cons, List.flatten_cons, list_item_eq, List.cons_append]
    rw [hexp]
    unfold splitOnChar
    rw [if_pos rfl, h2]
    simp

theorem digitChar_isDigit (d : Nat) (h : d < 10) : (digitChar d).isDigit = true := by
  interval_cases d <;> decide

theorem natReprFuel_digit :
    ∀ (fuel n : Nat), ∀ c ∈ natReprFuel fuel n, c.isDigit = true := by
  intro fuel
  induction fuel with
  | zero => intro n c hc; simp [natReprFuel] at hc
  | succ fuel ih =>
    intro n c hc
    unfold natReprFuel at hc
    by_cases hn : n < 10
    · rw [if_pos hn] at hc
      simp at hc
      subst hc
      exact digitChar_isDigit n hn
    · rw [if_neg hn] at hc
      rcases List.mem_append.mp hc with h1 | h2
      · exact ih (n / 10) c h1
      · simp at h2
        subst h2
        exact digitChar_isDigit (n % 10) (Nat.mod_lt n (by omega))

theorem natRepr_digit (n : Nat) : ∀ c ∈ natRepr n, c.isDigit = true :=
  natReprFuel_digit (n + 1) n

theorem digit_ne_nul (c : Char) (h : c.isDigit = true) : c ≠ '\x00' := by
  intro hc
  subst hc
  exact absurd h (by decide)

theorem mem_splitOnChar (sep : Char) :
    ∀ l seg, seg ∈ splitOnChar sep l → ∀ c ∈ seg, c ≠ sep := by
  intro l
  induction l with
  | nil =>
    intro seg hseg c hc
    simp [splitOnChar] at hseg
    subst hseg
    simp at hc
  | cons a rest ih =>
    intro seg hseg c hc
    unfold splitOnChar at hseg
    by_cases ha : a = sep
    · rw [if_pos ha] at hseg
      rcases List.mem_cons.mp hseg with rfl | h2
      · simp at hc
      · exact ih seg h2 c hc
    · rw [if_neg ha] at hseg
      cases hsp : splitOnChar sep rest with
      | nil => exact absurd hsp (splitOnChar_ne_nil sep rest)
      | cons s ss =>
        rw [hsp] at hseg
        rcases List.mem_cons.mp hseg with rfl | h2
        · rcases List.mem_cons.mp hc with rfl | h3
          · exact ha
          · exact ih s (by rw [hsp]; exact List.mem_cons_self s ss) c h3
        · exact ih seg (by rw [hsp]; exact List.mem_cons_of_mem s h2) c hc

theorem mem_pyLines :
    ∀ (xs : List (List Char)) (c : Char), c ∈ pyLines xs →
      c = '\n' ∨ ∃ x ∈ xs, c ∈ x := by
  intro xs
  induction xs with
  | nil =>
    intro c hc
    simp [pyLines] at hc
    exact Or.inl hc
  | cons x rest ih =>
    cases rest with
    | nil =>
      intro c hc
      rcases List.mem_append.mp hc with h1 | h2
      · exact Or.inr ⟨x, List.mem_cons_self x [], h1⟩
      · simp at h2; exact Or.inl h2
    | cons y rest2 =>
      intro c hc
      rcases List.mem_append.mp hc with h1 | h2
      · exact Or.inr ⟨x, List.mem_cons_self x (y :: rest2), h1⟩
      · rcases List.mem_cons.mp h2 with rfl | h3
        · exact Or.inl rfl
        · rcases ih c h3 with h4 | ⟨u, hu, hcu⟩
          · exact Or.inl h4
          · exact Or.inr ⟨u, List.mem_cons_of_mem x hu, hcu⟩

theorem ipBlocks_sepfree :
    ∀ (chunks : List (List Char)) (n : Nat),
      (∀ ch ∈ chunks, ∀ c ∈ ch, c ≠ '\x00') →
      ∀ c ∈ ipBlocks n chunks, c ≠ '\x00' := by
  intro chunks
  induction chunks with
  | nil => intro n _ c hc; simp [ipBlocks] at hc
  | cons ch rest ih =>
    intro n hfree c hc
    unfold ipBlocks at hc
    rcases List.mem_append.mp hc with h1 | h2
    · rcases List.mem_append.mp h1 with h3 | h4
      · rcases List.mem_append.mp h3 with h5 | h6
        · rcases List.mem_append.mp h5 with h7 | h8
          · exact ne_of_mem_of_not_mem h7 (by decide)
          · exact digit_ne_nul c (natRepr_digit n c h8)
        · exact ne_of_mem_of_not_mem h6 (by decide)
      · exact hfree ch (List.mem_cons_self ch rest) c h4
    · exact ih (n + 1) (fun u hu => hfree u (List.mem_cons_of_mem ch hu)) c h2

theorem roff_list_sepfree (body : List Char) (ordered : Bool) (out : List Char)
    (h : roff_list body ordered = Except.ok out) : ∀ c ∈ out, c ≠ '\x00' := by
  intro c hc
  unfold roff_list at h
  split at h
  · -- ordered list
    split at h
    · exact absurd h (by simp)
    · rename_i body b0 brest
      split at h
      · rw [Except.ok.injEq] at h
        subst h
        rcases mem_pyLines _ c hc with rfl | ⟨x, hx, hcx⟩
        · decide
        · rcases List.mem_cons.mp hx with rfl | hx2
          · simp at hcx
          · rcases List.mem_cons.mp hx2 with rfl | hx3
            · exact ne_of_mem_of_not_mem hcx (by decide)
            · rcases List.mem_cons.mp hx3 with rfl | hx4
              · refine ipBlocks_sepfree _ 1 ?_ c hcx
                intro ch hch
                exact mem_splitOnChar '\x00' (b0 :: brest) ch
                  (List.mem_of_mem_tail hch)
              · rcases List.mem_cons.mp hx4 with rfl | hx5
                · exact ne_of_mem_of_not_mem hcx (by decide)
                · simp at hx5
      · exact absurd h (by simp)
  · -- unordered list
    rw [Except.ok.injEq] at h
    subst h
    rcases mem_pyLines _ c hc with rfl | ⟨x, hx, hcx⟩
    · decide
    · rcases List.mem_cons.mp hx with rfl | hx2
      · simp at hcx
      · rcases List.mem_cons.mp hx2 with rfl | hx3
        · exact ne_of_mem_of_not_mem hcx (by decide)
        · rcases List.mem_cons.mp hx3 with rfl | hx4
          · rw [pyReplace_single] at hcx
            obtain ⟨y, hy, hcy⟩ := List.mem_flatMap.mp hcx
            by_cases hynul : y = '\x00'
            · rw [if_pos hynul] at hcy
              exact ne_of_mem_of_not_mem hcy (by decide)
            · rw [if_neg hynul] at hcy
              simp at hcy
              subst hcy
              exact hynul
          · rcases List.mem_cons.mp hx4 with rfl | hx5
            · exact ne_of_mem_of_not_mem hcx (by decide)
            · simp at hx5

/-- C6: for a list body assembled from `k ≥ 1` sentinel-free item outputs,
the body starts with the sentinel (so the `assert` never fails), splitting
on the sentinel recovers exactly the `k` item chunks after an empty first
segment, the ordered-list output numbers the items `.IP 1\.`, `.IP 2\.`, …
in document order, and no successful list output contains a sentinel — so a
nested inner list contributes no sentinel to an outer list's split. -/
theorem mrkd_c6 (items : List (List Char)) (hne : items ≠ [])
    (hfree : ∀ t ∈ items, ∀ c ∈ t, c ≠ '\x00') :
    ((items.map list_item).flatten.head? = some '\x00') ∧
    splitOnChar '\x00' ((items.map list_item).flatten)
      = [] :: items.map itemChunk ∧
    roff_list ((items.map list_item).flatten) true
      = Except.ok (pyLines [[], ".RS".data,
          ipBlocks 1 (items.map itemChunk), ".RE".data]) ∧
    (∀ (body : List Char) (ordered : Bool) (out : List Char),
      roff_list body ordered = Except.ok out → '\x00' ∉ out) := by
  obtain ⟨t, rest, rfl⟩ : ∃ t rest, items = t :: rest := by
    cases items with
    | nil => exact absurd rfl hne
    | cons t rest => exact ⟨t, rest, rfl⟩
  have hsplit := split_body rest t (hfree t (List.mem_cons_self t rest))
    (fun u hu => hfree u (List.mem_cons_of_mem t hu))
  have hbody : (((t :: rest).map list_item).flatten)
      = '\x00' :: (itemChunk t ++ ((rest.map list_item).flatten)) := by
    rw [List.map_cons, List.flatten_cons, list_item_eq, List.cons_append]
  refine ⟨by rw [hbody]; rfl, hsplit, ?_,
    fun body ordered out h hmem => roff_list_sepfree body ordered out h '\x00' hmem rfl⟩
  rw [hbody] at hsplit ⊢
  simp [roff_list, hsplit]

/-- C6 witness: the two-item list `1. a  2. b`. -/
theorem mrkd_c6_witness :
    roff_list ((["a".data, "b".data].map list_item).flatten) true
      = Except.ok (pyLines [[], ".RS".data,
          ipBlocks 1 (["a".data, "b".data].map itemChunk), ".RE".data]) :=
  (mrkd_c6 ["a".data, "b".data] (by decide) (by decide)).2.2.1

end Mrkd
